import Mathlib

set_option maxRecDepth 8192

/-!
# Verification of the discovery pipeline (spike-pa11y)

A shallow embedding of the URL-discovery pipeline in `internal/discovery`
(`service.go` with sitemap sampling and head cleanup, `llm.go` with the
JSON-based curation parsing), together with proofs of the behavioural
properties stated in the design document.

Modelling conventions:
* Go strings are modelled as `String` / `List Char`.  `strings.Index` returns
  byte offsets in Go and character offsets here; the two agree on the ASCII
  needles (`"<head>"`, `"</head>"`, tag names, `">"`) this code searches for,
  and the extracted substrings coincide.
* Network and LLM effects are oracles passed in explicitly
  (`fetch`, `fetchBody`, the curation responses in `DiscoveryEnv`), so a run of
  `Discover` is a pure function of the environment.
* Unbounded recursion over sub-sitemaps (the Go code has no depth bound) is
  modelled with an explicit fuel parameter; the runtime panic that Go raises
  for an out-of-range slice in `extractHeads` is modelled as `none`.
* `encoding/json` is modelled by a recursive-descent parser for the JSON value
  grammar (`parseValue` below): insignificant whitespace, strings with the
  standard escapes (lone `\u` surrogates become U+FFFD; surrogate-pair
  combining is not modelled), arrays, objects, literals, and a numeral scan
  that does not re-validate the numeral grammar.  Go's `Unmarshal` skips
  whitespace around the single top-level value; this is modelled by trimming
  JSON whitespace at both ends before the parse and requiring the value to
  consume the whole remainder.
-/

namespace Discovery

deriving instance DecidableEq for Except

/-! ## Character and string utilities -/

/-- Whitespace recognised by Go's `strings.TrimSpace` (`unicode.IsSpace`,
restricted to its ASCII part; the Latin-1 additions play no role here). -/
def goSpace (c : Char) : Bool :=
  c == ' ' || c == '\t' || c == '\n' || c == '\x0b' || c == '\x0c' || c == '\r'

/-- Whitespace that is insignificant in JSON (`encoding/json`). -/
def jsonSpace (c : Char) : Bool :=
  c == ' ' || c == '\t' || c == '\n' || c == '\r'

/-- Drop trailing characters satisfying `p`. -/
def dropTrail (p : Char → Bool) (l : List Char) : List Char :=
  (l.reverse.dropWhile p).reverse

/-- Go `strings.TrimSpace` on a character list. -/
def trimGoSpace (l : List Char) : List Char :=
  dropTrail goSpace (l.dropWhile goSpace)

/-- Trim JSON-insignificant whitespace from both ends. -/
def trimJsonSpace (l : List Char) : List Char :=
  dropTrail jsonSpace (l.dropWhile jsonSpace)

/-- Go `strings.TrimPrefix`: remove one leading occurrence of `p`, if present. -/
def trimPrefixL (l p : List Char) : List Char :=
  if p.isPrefixOf l then l.drop p.length else l

/-- Go `strings.TrimSuffix`: remove one trailing occurrence of `p`, if present. -/
def trimSuffixL (l p : List Char) : List Char :=
  if p.isSuffixOf l then l.take (l.length - p.length) else l

/-- Go `strings.Index`: index of the first occurrence of `ned` in `hay`
(`none` where Go returns `-1`). -/
def strIndex (hay ned : List Char) : Option Nat :=
  match hay with
  | [] => if ned.isEmpty then some 0 else none
  | c :: t =>
    if ned.isPrefixOf (c :: t) then some 0
    else (strIndex t ned).map (fun n => n + 1)

/-- Go `strings.ToLower`, restricted to the ASCII mapping of `Char.toLower`
(every tag name this code lowers is ASCII). -/
def lowerL (l : List Char) : List Char := l.map Char.toLower

/-! ## JSON values and the `encoding/json` model -/

/-- A parsed JSON value.  Numeral text is irrelevant to this pipeline (the
decoded shapes contain only strings), so numbers carry no payload. -/
inductive JVal where
  | str (s : String)
  | num
  | bool (b : Bool)
  | null
  | arr (elems : List JVal)
  | obj (fields : List (String × JVal))

/-- Value of a hexadecimal digit. -/
def hexVal (c : Char) : Option Nat :=
  if '0' ≤ c ∧ c ≤ '9' then some (c.toNat - '0'.toNat)
  else if 'a' ≤ c ∧ c ≤ 'f' then some (c.toNat - 'a'.toNat + 10)
  else if 'A' ≤ c ∧ c ≤ 'F' then some (c.toNat - 'A'.toNat + 10)
  else none

/-- Single-character JSON string escapes. -/
def escChar (e : Char) : Option Char :=
  if e == '"' then some '"'
  else if e == '\\' then some '\\'
  else if e == '/' then some '/'
  else if e == 'n' then some '\n'
  else if e == 't' then some '\t'
  else if e == 'r' then some '\r'
  else if e == 'b' then some '\x08'
  else if e == 'f' then some '\x0c'
  else none

/-- Scan a JSON string body (the opening quote already consumed); returns the
decoded characters and the remainder after the closing quote.  Unescaped
control characters are a syntax error, as in Go. -/
def parseStringBody : Nat → List Char → Option (List Char × List Char)
  | 0, _ => none
  | _ + 1, [] => none
  | fuel + 1, c :: rest =>
    if c == '"' then some ([], rest)
    else if c == '\\' then
      match rest with
      | [] => none
      | 'u' :: h1 :: h2 :: h3 :: h4 :: rest4 =>
        match hexVal h1, hexVal h2, hexVal h3, hexVal h4 with
        | some a, some b, some c2, some d =>
          let n := ((a * 16 + b) * 16 + c2) * 16 + d
          let ch := if n < 55296 then Char.ofNat n
                    else if n ≤ 57343 then '�' else Char.ofNat n
          (parseStringBody fuel rest4).map (fun p => (ch :: p.1, p.2))
        | _, _, _, _ => none
      | e :: rest2 =>
        match escChar e with
        | some ch => (parseStringBody fuel rest2).map (fun p => (ch :: p.1, p.2))
        | none => none
    else if c.toNat < 32 then none
    else (parseStringBody fuel rest).map (fun p => (c :: p.1, p.2))

/-- Characters that can continue a JSON numeral token. -/
def numChar (c : Char) : Bool :=
  c.isDigit || c == '-' || c == '+' || c == '.' || c == 'e' || c == 'E'

/-- Consume a literal keyword (`true` / `false` / `null` tails). -/
def stripLit (lit l : List Char) : Option (List Char) :=
  if lit.isPrefixOf l then some (l.drop lit.length) else none

/-- The characters a successfully parsed JSON value can end on: a closing
quote, bracket or brace, the final letter of `true`/`false`/`null`, or a
numeral character. -/
def valEnd (c : Char) : Bool :=
  c == '"' || c == ']' || c == '\x7d' || c == 'e' || c == 'l' || numChar c

mutual

/-- Parse one JSON value from the head of the input (no leading whitespace);
returns the value and the unconsumed remainder. -/
def parseValue : Nat → List Char → Option (JVal × List Char)
  | 0, _ => none
  | fuel + 1, cs =>
    match cs with
    | [] => none
    | c :: rest =>
      if c == '"' then
        match parseStringBody (rest.length + 1) rest with
        | some (s, r) => some (.str (String.mk s), r)
        | none => none
      else if c == '[' then
        match rest.dropWhile jsonSpace with
        | ']' :: r2 => some (.arr [], r2)
        | r1 =>
          match parseElems fuel r1 with
          | some (vs, r2) => some (.arr vs, r2)
          | none => none
      else if c == '\x7b' then
        match rest.dropWhile jsonSpace with
        | '\x7d' :: r2 => some (.obj [], r2)
        | r1 =>
          match parseMembers fuel r1 with
          | some (ms, r2) => some (.obj ms, r2)
          | none => none
      else if c == 't' then
        (stripLit (String.toList "rue") rest).map (fun r => (.bool true, r))
      else if c == 'f' then
        (stripLit (String.toList "alse") rest).map (fun r => (.bool false, r))
      else if c == 'n' then
        (stripLit (String.toList "ull") rest).map (fun r => (.null, r))
      else if c.isDigit || c == '-' then
        some (.num, (c :: rest).dropWhile numChar)
      else none

/-- Parse the elements of a non-empty JSON array, up to and including the
closing bracket. -/
def parseElems : Nat → List Char → Option (List JVal × List Char)
  | 0, _ => none
  | fuel + 1, cs =>
    match parseValue fuel cs with
    | none => none
    | some (v, r1) =>
      match r1.dropWhile jsonSpace with
      | ',' :: r2 =>
        match parseElems fuel (r2.dropWhile jsonSpace) with
        | some (vs, r3) => some (v :: vs, r3)
        | none => none
      | ']' :: r2 => some ([v], r2)
      | _ => none

/-- Parse the members of a non-empty JSON object, up to and including the
closing brace. -/
def parseMembers : Nat → List Char → Option (List (String × JVal) × List Char)
  | 0, _ => none
  | fuel + 1, cs =>
    match cs with
    | '"' :: r0 =>
      match parseStringBody (r0.length + 1) r0 with
      | none => none
      | some (k, r1) =>
        match r1.dropWhile jsonSpace with
        | ':' :: r2 =>
          match parseValue fuel (r2.dropWhile jsonSpace) with
          | none => none
          | some (v, r3) =>
            match r3.dropWhile jsonSpace with
            | ',' :: r4 =>
              match parseMembers fuel (r4.dropWhile jsonSpace) with
              | some (ms, r5) => some ((String.mk k, v) :: ms, r5)
              | none => none
            | '\x7d' :: r4 => some ([(String.mk k, v)], r4)
            | _ => none
        | _ => none
    | _ => none

end

/-- Parse a complete JSON document: whitespace around the single top-level
value is insignificant, and nothing else may follow it.  The fuel
`length + 1` is sufficient because every recursive step consumes at least one
input character. -/
def jsonTopParse (l : List Char) : Option JVal :=
  let core := trimJsonSpace l
  match parseValue (core.length + 1) core with
  | some (v, rest) => if rest.dropWhile jsonSpace = [] then some v else none
  | none => none

/-- A discovered URL with its status (`Result` in `service.go`, serialised
with lowercase JSON tags `url`, `status`, `category`). -/
structure Result where
  URL : String
  Status : String
  Category : String
deriving DecidableEq

/-- Unmarshal one JSON value into a Go `string`: only a JSON string fits, and
`null` leaves the zero value untouched. -/
def decodeString : JVal → Except String String
  | .str s => .ok s
  | .null => .ok ""
  | _ => .error "failed to parse JSON response"

/-- Unmarshal into `[]string` (Go semantics: `null` yields the empty slice). -/
def decodeURLList : JVal → Except String (List String)
  | .null => .ok []
  | .arr vs => vs.mapM decodeString
  | _ => .error "failed to parse JSON response"

/-- ASCII-lowered copy of a string (Go matches JSON object keys to struct
fields case-insensitively). -/
def lowerStr (s : String) : String := String.mk (lowerL s.toList)

/-- Assign one JSON object member to the matching field of a `Result`;
unknown keys are ignored, later duplicates overwrite earlier ones. -/
def setResultField (r : Result) (k : String) (v : JVal) : Except String Result :=
  if lowerStr k = "url" then
    match v with
    | .str s => .ok { r with URL := s }
    | .null => .ok r
    | _ => .error "failed to parse JSON response"
  else if lowerStr k = "status" then
    match v with
    | .str s => .ok { r with Status := s }
    | .null => .ok r
    | _ => .error "failed to parse JSON response"
  else if lowerStr k = "category" then
    match v with
    | .str s => .ok { r with Category := s }
    | .null => .ok r
    | _ => .error "failed to parse JSON response"
  else .ok r

/-- Unmarshal one JSON value into a `Result`. -/
def decodeResult : JVal → Except String Result
  | .null => .ok { URL := "", Status := "", Category := "" }
  | .obj fields =>
    fields.foldlM (fun r kv => setResultField r kv.1 kv.2)
      { URL := "", Status := "", Category := "" }
  | _ => .error "failed to parse JSON response"

/-- Unmarshal into `[]Result`. -/
def decodeResultList : JVal → Except String (List Result)
  | .null => .ok []
  | .arr vs => vs.mapM decodeResult
  | _ => .error "failed to parse JSON response"

/-- `json.Unmarshal(data, &urls)` for `urls : []string`.  Error text is
abstracted to a constant (Go wraps the underlying json error). -/
def jsonUnmarshalURLs (l : List Char) : Except String (List String) :=
  match jsonTopParse l with
  | none => .error "failed to parse JSON response"
  | some v => decodeURLList v

/-- `json.Unmarshal(data, &results)` for `results : []Result`. -/
def jsonUnmarshalResults (l : List Char) : Except String (List Result) :=
  match jsonTopParse l with
  | none => .error "failed to parse JSON response"
  | some v => decodeResultList v

/-- The markdown code-fence opener stripped by both curation parsers. -/
def fenceOpen : List Char := String.toList "```json"

/-- The markdown code-fence closer. -/
def fenceClose : List Char := String.toList "```"

/-- `parseJSONURLs` (stage-1 curation parsing): strip one leading
```` ```json ````, one trailing ```` ``` ````, `strings.TrimSpace`, then
unmarshal a JSON string array. -/
def parseJSONURLs (s : String) : Except String (List String) :=
  jsonUnmarshalURLs (trimGoSpace (trimSuffixL (trimPrefixL s.toList fenceOpen) fenceClose))

/-- `parseJSONResponse` (stage-2 curation parsing): strip the fence markers
(no `TrimSpace` here, exactly as in the source) and unmarshal `[]Result`. -/
def parseJSONResponse (s : String) : Except String (List Result) :=
  jsonUnmarshalResults (trimSuffixL (trimPrefixL s.toList fenceOpen) fenceClose)

/-! ## Sitemap resolution (`parseXMLSitemap`) -/

/-- A fetched-and-parsed sitemap document as `etree` exposes it: a
`<sitemapindex>` whose `<sitemap>` children each carry an optional `<loc>`,
a `<urlset>` whose `<url>` children each carry an optional `<loc>`, or
anything else.  Transport errors, non-200 statuses, gzip failures and
malformed XML are all collapsed into the fetch oracle's `.error` case, since
`parseXMLSitemap` turns each of them into an error return. -/
inductive XMLDoc where
  | index (entries : List (Option String))
  | urlset (entries : List (Option String))
  | other
deriving DecidableEq

/-- Collect the `<loc>` texts of a `<urlset>`, in document order, skipping
entries with no `<loc>`. -/
def locTexts : List (Option String) → List String
  | [] => []
  | none :: rest => locTexts rest
  | some u :: rest => u :: locTexts rest

/-- Resolve the children of a `<sitemapindex>`: a child whose recursive
resolution fails is skipped (logged and continued in Go), the others are
concatenated in order. -/
def resolveIndexEntries (resolveSub : String → Except String (List String)) :
    List (Option String) → List String
  | [] => []
  | none :: rest => resolveIndexEntries resolveSub rest
  | some u :: rest =>
    (match resolveSub u with
     | .error _ => []
     | .ok subUrls => subUrls) ++ resolveIndexEntries resolveSub rest

/-- `parseXMLSitemap`: fetch and parse a sitemap URL, recursing through
sitemap indexes.  The Go code recurses without a depth bound; `fuel` makes
the model total and every theorem below supplies enough of it. -/
def parseXMLSitemap (fetch : String → Except String XMLDoc) :
    Nat → String → Except String (List String)
  | 0, _ => .error "sitemap recursion fuel exhausted"
  | fuel + 1, url =>
    match fetch url with
    | .error e => .error e
    | .ok (.index entries) => .ok (resolveIndexEntries (parseXMLSitemap fetch fuel) entries)
    | .ok (.urlset entries) => .ok (locTexts entries)
    | .ok .other => .error "invalid sitemap format: neither sitemapindex nor urlset found"

/-! ## Population sampling (`sampleUrls`) -/

/-- The comparison `sort.Slice` is given: Go `len` is the UTF-8 byte length. -/
def lenLE (a b : String) : Prop := a.utf8ByteSize ≤ b.utf8ByteSize

instance : DecidableRel lenLE := fun a b => Nat.decLe a.utf8ByteSize b.utf8ByteSize

instance : IsTotal String lenLE := ⟨fun a b => Nat.le_total a.utf8ByteSize b.utf8ByteSize⟩

instance : IsTrans String lenLE := ⟨fun _ _ _ => Nat.le_trans⟩

/-- The length-ascending sort of the copied slice.  `sort.Slice` guarantees
only some permutation ordered by the comparison; it is modelled by insertion
sort, one such permutation. -/
def sortByLen (urls : List String) : List String := List.insertionSort lenLE urls

/-- `sampleUrls`: identity at 200 entries or fewer; otherwise the 20 shortest
URLs followed by up to 180 of the shuffled remainder.  The wall-clock-seeded
`rand.Shuffle` is the explicit `shuffle` parameter; theorems assume only that
it permutes its input. -/
def sampleUrls (shuffle : List String → List String) (urls : List String) : List String :=
  if urls.length ≤ 200 then urls
  else
    let sorted := sortByLen urls
    let result := sorted.take 20
    let remaining := sorted.drop 20
    if 0 < remaining.length then
      result ++ (shuffle remaining).take 180
    else
      result

/-! ## Head extraction and cleanup -/

/-- The body of `removeTagsAndContent`'s `for` loop, iterated on fuel: find
the lowered opening tag, the end of its `>`, then the lowered closing tag;
with no closing tag truncate at the opening tag; otherwise splice the block
out and continue.  Every recursive step strictly shortens the text, so the
`length + 1` fuel supplied by `removeTagsAndContent` never runs out. -/
def removeLoopF (openTagL closeTagL : List Char) : Nat → List Char → List Char
  | 0, cs => cs
  | fuel + 1, cs =>
    match strIndex (lowerL cs) (lowerL openTagL) with
    | none => cs
    | some openStart =>
      match strIndex (cs.drop openStart) ['>'] with
      | none => cs
      | some i =>
        let openEnd := openStart + i + 1
        match strIndex (lowerL (cs.drop openEnd)) (lowerL closeTagL) with
        | none => cs.take openStart
        | some j =>
          removeLoopF openTagL closeTagL fuel
            (cs.take openStart ++ cs.drop (openEnd + j + closeTagL.length))

/-- `removeTagsAndContent`: remove every `<tagName ...>…</tagName>` block,
case-insensitively. -/
def removeTagsAndContent (html tagName : String) : String :=
  String.mk (removeLoopF (String.toList ("<" ++ tagName))
    (String.toList ("</" ++ tagName ++ ">")) (html.toList.length + 1) html.toList)

/-- `cleanupHTML`: strip `<script>` blocks, then `<style>` blocks. -/
def cleanupHTML (html : String) : String :=
  removeTagsAndContent (removeTagsAndContent html "script") "style"

/-- The literal `"<head>"` needle. -/
def headOpen : List Char := String.toList "<head>"

/-- The literal `"</head>"` needle. -/
def headClose : List Char := String.toList "</head>"

/-- Per-body head extraction: when both literal markers are found, Go slices
`body[headStart+6 : headEnd]` and cleans it; with `headEnd < headStart + 6`
that slice is out of range and panics, modelled as `none`.  A missing marker
yields the empty fragment. -/
def extractHeadFragment (body : String) : Option String :=
  match strIndex body.toList headOpen, strIndex body.toList headClose with
  | some headStart, some headEnd =>
    if headStart + 6 ≤ headEnd then
      some (cleanupHTML (String.mk
        ((body.toList.drop (headStart + 6)).take (headEnd - (headStart + 6)))))
    else none
  | _, _ => some ""

/-- `extractHeads`: fetch every URL in order; a failed fetch records the
empty fragment and continues, a panic in the slice aborts everything
(`none`).  The Go `map[string]string` is modelled as the association list in
traversal order. -/
def extractHeads (fetchBody : String → Option String) :
    List String → Option (List (String × String))
  | [] => some []
  | url :: rest =>
    match (match fetchBody url with
           | none => some ""
           | some body => extractHeadFragment body) with
    | none => none
    | some frag =>
      match extractHeads fetchBody rest with
      | none => none
      | some m => some ((url, frag) :: m)

/-! ## The orchestrator (`Discover`) -/

/-- The effectful collaborators of one `Discover` run: the sitemap resolution
outcome, the sampler's randomness, the two curation responses (transport
error or raw text, as functions of what the pipeline sends them), the page
bodies for head extraction, and the status checker (total in Go: it returns
an error description string on failure). -/
structure DiscoveryEnv where
  sitemap : Except String (List String)
  shuffle : List String → List String
  narrowResp : List String → Except String String
  fetchBody : String → Option String
  selectResp : List String → List (String × String) → Except String String
  status : String → String

/-- Step 6 of `Discover`: mutate every result's `Status` in place. -/
def updateStatuses (status : String → String) (rs : List Result) : List Result :=
  rs.map (fun r => { r with Status := status r.URL })

/-- `Discover` (the five-stage version of `service.go` with sampling):
resolve, sample, narrow (stage-1 parse), extract heads, select-and-categorise
(stage-2 parse), then check statuses.  `none` is a runtime panic escaping the
call; `some (.error e)` is the error return. -/
def Discover (env : DiscoveryEnv) : Option (Except String (List Result)) :=
  match env.sitemap with
  | .error e => some (.error e)
  | .ok initialURLs =>
    let sampled := sampleUrls env.shuffle initialURLs
    match env.narrowResp sampled with
    | .error e => some (.error ("failed to call LLM: " ++ e))
    | .ok raw1 =>
      match parseJSONURLs raw1 with
      | .error e => some (.error e)
      | .ok narrowedURLs =>
        match extractHeads env.fetchBody narrowedURLs with
        | none => none
        | some heads =>
          match env.selectResp narrowedURLs heads with
          | .error e => some (.error ("failed to call LLM: " ++ e))
          | .ok raw2 =>
            match parseJSONResponse raw2 with
            | .error e => some (.error e)
            | .ok finalResults => some (.ok (updateStatuses env.status finalResults))

/-! ## Concrete oracles and environments used by the closed theorems -/

/-- A concrete 201-URL population for exercising the sampler. -/
def manyUrls : List String :=
  (List.range 201).map (fun n => "https://site.example/p" ++ toString n)

/-- A concrete fetch oracle with a three-entry URL set at the sitemap URL. -/
def urlsetFetch : String → Except String XMLDoc := fun u =>
  if u = "https://site.example/sitemap.xml" then
    .ok (.urlset [some "https://site.example/", some "https://site.example/a",
      some "https://site.example/b"])
  else .error "404"

/-- A concrete index oracle: three children, the middle one unreachable. -/
def indexFetch : String → Except String XMLDoc := fun u =>
  if u = "https://site.example/sitemap.xml" then
    .ok (.index [some "https://site.example/s1.xml", some "https://site.example/s2.xml",
      some "https://site.example/s3.xml"])
  else if u = "https://site.example/s1.xml" then
    .ok (.urlset [some "https://site.example/a1", some "https://site.example/a2"])
  else if u = "https://site.example/s3.xml" then
    .ok (.urlset [some "https://site.example/b1"])
  else .error "fetch failed"

/-- The `<loc>` entries served by `indexFetch` for the two live children. -/
def indexFetchSub : String → List (Option String) := fun u =>
  if u = "https://site.example/s1.xml" then
    [some "https://site.example/a1", some "https://site.example/a2"]
  else [some "https://site.example/b1"]

/-- A stage-1 response whose echoed candidate makes the pipeline reach
stage 2, used by several concrete environments. -/
def echoedNarrowJson : String := "[\"https://site.example/p0\"]"

/-- The page body served for head extraction in the concrete environments. -/
def simpleHeadBody : String := "<head><title>T</title></head>"

/-- A concrete environment whose stage-2 curation response is not JSON. -/
def malformedEnv : DiscoveryEnv :=
  { sitemap := .ok ["https://site.example/p0"]
    shuffle := id
    narrowResp := fun _ => .ok echoedNarrowJson
    fetchBody := fun _ => some simpleHeadBody
    selectResp := fun _ _ => .ok "this is not json"
    status := fun _ => "200 OK" }

/-- A syntactically valid stage-2 curation response carrying eleven result
objects — one more than the ten the prompt asks for. -/
def elevenJson : String :=
  "[" ++ String.intercalate ","
    ((List.range 11).map (fun i =>
      "\x7b\"url\":\"https://site.example/p" ++ toString i ++
        "\",\"category\":\"cat\"\x7d")) ++ "]"

/-- A concrete environment whose stage-2 curation response is `elevenJson`. -/
def elevenResultsEnv : DiscoveryEnv :=
  { sitemap := .ok ["https://site.example/p0"]
    shuffle := id
    narrowResp := fun _ => .ok echoedNarrowJson
    fetchBody := fun _ => some simpleHeadBody
    selectResp := fun _ _ => .ok elevenJson
    status := fun _ => "200 OK" }

/-- What `parseJSONResponse` yields on `elevenJson` (statuses still unset). -/
def elevenParsed : List Result :=
  (List.range 11).map (fun i =>
    { URL := "https://site.example/p" ++ toString i, Status := "", Category := "cat" })

/-! ## Helper lemmas -/

theorem locTexts_map_some (l : List String) : locTexts (l.map some) = l := by
  induction l with
  | nil => rfl
  | cons a t ih => simp [locTexts, ih]

theorem resolveIndexEntries_append (r : String → Except String (List String))
    (l1 l2 : List (Option String)) :
    resolveIndexEntries r (l1 ++ l2) =
      resolveIndexEntries r l1 ++ resolveIndexEntries r l2 := by
  induction l1 with
  | nil => rfl
  | cons a t ih =>
    cases a with
    | none => simp [resolveIndexEntries, ih]
    | some u => simp [resolveIndexEntries, ih]

theorem resolveIndexEntries_map_some_ok (r : String → Except String (List String))
    (g : String → List String) (l : List String)
    (h : ∀ u ∈ l, r u = .ok (g u)) :
    resolveIndexEntries r (l.map some) = (l.map g).flatten := by
  induction l with
  | nil => rfl
  | cons a t ih =>
    have ha := h a (by simp)
    simp [resolveIndexEntries, ha, ih (fun u hu => h u (by simp [hu]))]

/-! ## Claim theorems -/

/-- Claim C7: for an input population of size at most 200 the sampler is the
identity function (same list, same order). -/
theorem sampleUrls_small_population_identity (shuffle : List String → List String)
    (urls : List String) (h : urls.length ≤ 200) :
    sampleUrls shuffle urls = urls := by
  simp [sampleUrls, h]

/-- Witness for C7 at a concrete two-element population. -/
theorem sampleUrls_small_population_identity_check :
    ["https://a.example/", "https://b.example/"].length ≤ 200 ∧
      sampleUrls id ["https://a.example/", "https://b.example/"] =
        ["https://a.example/", "https://b.example/"] :=
  ⟨by decide, sampleUrls_small_population_identity id _ (by decide)⟩

/-- Claim C2: for a population of more than 200 URLs (and any permutation the
shuffle produces), the sample has at most 200 entries, begins with the first
20 entries of the length-sorted copy (the 20 shortest URLs by byte length —
the sorted copy is `Sorted` under `lenLE`), and is a sub-multiset of the
input, so no duplicates are introduced. -/
theorem sampleUrls_large_population (shuffle : List String → List String)
    (urls : List String) (hlen : 200 < urls.length)
    (hperm : List.Perm (shuffle ((sortByLen urls).drop 20)) ((sortByLen urls).drop 20)) :
    (sampleUrls shuffle urls).length ≤ 200 ∧
      List.IsPrefix ((sortByLen urls).take 20) (sampleUrls shuffle urls) ∧
      List.Subperm (sampleUrls shuffle urls) urls ∧
      List.Sorted lenLE (sortByLen urls) := by
  have hns : ¬ urls.length ≤ 200 := by omega
  have hsortlen : (sortByLen urls).length = urls.length :=
    (List.perm_insertionSort lenLE urls).length_eq
  have hrem : 0 < ((sortByLen urls).drop 20).length := by
    rw [List.length_drop, hsortlen]; omega
  have hout : sampleUrls shuffle urls =
      (sortByLen urls).take 20 ++ (shuffle ((sortByLen urls).drop 20)).take 180 := by
    simp only [sampleUrls, if_neg hns]
    rw [if_pos hrem]
  refine ⟨?_, ?_, ?_, List.sorted_insertionSort lenLE urls⟩
  · rw [hout]
    simp only [List.length_append, List.length_take]
    omega
  · rw [hout]
    exact List.prefix_append _ _
  · rw [hout]
    have h1 : List.Sublist ((shuffle ((sortByLen urls).drop 20)).take 180)
        (shuffle ((sortByLen urls).drop 20)) := List.take_sublist _ _
    have h2 := List.Sublist.append_left h1 ((sortByLen urls).take 20)
    have h3 := List.Perm.append_left ((sortByLen urls).take 20) hperm
    have h4 : (sortByLen urls).take 20 ++ (sortByLen urls).drop 20 = sortByLen urls :=
      List.take_append_drop 20 _
    have h5 : List.Perm (sortByLen urls) urls := List.perm_insertionSort lenLE urls
    have h6 : List.Perm ((sortByLen urls).take 20 ++ (sortByLen urls).drop 20) urls := by
      rw [h4]; exact h5
    exact h2.subperm.trans ((h3.trans h6).subperm)

/-- Witness for C2 at the concrete 201-URL population, with the identity
shuffle. -/
theorem sampleUrls_large_population_check :
    (sampleUrls id manyUrls).length ≤ 200 ∧
      List.IsPrefix ((sortByLen manyUrls).take 20) (sampleUrls id manyUrls) ∧
      List.Subperm (sampleUrls id manyUrls) manyUrls ∧
      List.Sorted lenLE (sortByLen manyUrls) :=
  sampleUrls_large_population id manyUrls
    (by simp [manyUrls]) (List.Perm.refl _)

/-- Claim C6: a well-formed URL-set sitemap with N location entries resolves
to exactly those N URLs in document order. -/
theorem urlset_resolution_preserves_locs (fetch : String → Except String XMLDoc)
    (url : String) (locs : List String) (fuel : Nat)
    (h : fetch url = .ok (.urlset (locs.map some))) :
    parseXMLSitemap fetch (fuel + 1) url = .ok locs := by
  simp [parseXMLSitemap, h, locTexts_map_some]

/-- Witness for C6 at the concrete URL-set oracle. -/
theorem urlset_resolution_preserves_locs_check :
    parseXMLSitemap urlsetFetch 1 "https://site.example/sitemap.xml" =
      .ok ["https://site.example/", "https://site.example/a", "https://site.example/b"] :=
  urlset_resolution_preserves_locs urlsetFetch _
    ["https://site.example/", "https://site.example/a", "https://site.example/b"] 0 (by decide)

/-- Claim C3: a sitemap index whose children are `pre ++ bad :: post`, where
resolving `bad` fails and every other child is a URL set, resolves to the
concatenation of the surviving children's URLs, in order, without failing the
whole call. -/
theorem sitemap_index_skips_failing_child
    (fetch : String → Except String XMLDoc) (root bad : String)
    (pre post : List String) (sub : String → List (Option String)) (fuel : Nat)
    (hroot : fetch root = .ok (.index ((pre ++ bad :: post).map some)))
    (hbad : ∃ e, parseXMLSitemap fetch (fuel + 1) bad = .error e)
    (hgood : ∀ u ∈ pre ++ post, fetch u = .ok (.urlset (sub u))) :
    parseXMLSitemap fetch (fuel + 2) root =
      .ok ((pre.map (fun u => locTexts (sub u))).flatten ++
           (post.map (fun u => locTexts (sub u))).flatten) := by
  obtain ⟨e, he⟩ := hbad
  have hstep : ∀ u ∈ pre ++ post, parseXMLSitemap fetch (fuel + 1) u = .ok (locTexts (sub u)) := by
    intro u hu
    simp [parseXMLSitemap, hgood u hu]
  have hpre := resolveIndexEntries_map_some_ok (parseXMLSitemap fetch (fuel + 1))
    (fun u => locTexts (sub u)) pre (fun u hu => hstep u (List.mem_append_left _ hu))
  have hpost := resolveIndexEntries_map_some_ok (parseXMLSitemap fetch (fuel + 1))
    (fun u => locTexts (sub u)) post (fun u hu => hstep u (List.mem_append_right _ hu))
  have hmid : resolveIndexEntries (parseXMLSitemap fetch (fuel + 1)) [some bad] = [] := by
    simp [resolveIndexEntries, he]
  have hsplit : (pre ++ bad :: post).map (some : String → Option String) =
      pre.map some ++ ([some bad] ++ post.map some) := by
    simp
  have hroot' : parseXMLSitemap fetch (fuel + 1 + 1) root =
      .ok (resolveIndexEntries (parseXMLSitemap fetch (fuel + 1))
        ((pre ++ bad :: post).map some)) := by
    conv_lhs => rw [parseXMLSitemap]
    rw [hroot]
  show parseXMLSitemap fetch (fuel + 1 + 1) root = _
  rw [hroot', hsplit, resolveIndexEntries_append, resolveIndexEntries_append, hmid, hpre,
    hpost]
  simp

/-- Witness for C3 at the concrete index oracle. -/
theorem sitemap_index_skips_failing_child_check :
    parseXMLSitemap indexFetch 2 "https://site.example/sitemap.xml" =
      .ok ((["https://site.example/s1.xml"].map (fun u => locTexts (indexFetchSub u))).flatten ++
           (["https://site.example/s3.xml"].map (fun u => locTexts (indexFetchSub u))).flatten) :=
  sitemap_index_skips_failing_child indexFetch "https://site.example/sitemap.xml"
    "https://site.example/s2.xml" ["https://site.example/s1.xml"]
    ["https://site.example/s3.xml"] indexFetchSub 0
    (by decide) ⟨"fetch failed", by decide⟩ (by decide)

/-- Claim C4: head-fragment cleanup removes script and style blocks with
case-insensitive matching and keeps the rest; a missing closing tag
truncates from the dangling opening tag to the end of the string.  The two
fragments pinned by the design document, plus an uppercase instance of the
case-insensitive matching. -/
theorem cleanupHTML_strips_script_and_style :
    cleanupHTML
        "<script>alert(1)</script><style>body\x7bcolor:red\x7d</style><title>X</title>" =
        "<title>X</title>" ∧
      cleanupHTML "<title>X</title><script>var x=1;" = "<title>X</title>" ∧
      cleanupHTML "<SCRIPT>x</SCRIPT>ok" = "ok" :=
  ⟨by decide, by decide, by decide⟩

/-- Claim C9 (failing input): on a body whose first `"</head>"` precedes its
first `"<head>"`, both markers are found and the Go slice
`body[headStart+6 : headEnd]` has its lower bound above its upper bound, so
`extractHeads` panics instead of recording a fragment — modelled as `none`. -/
theorem extractHeads_panics_on_reversed_head_markers :
    extractHeads (fun _ => some "</head><head>") ["https://victim.example/"] = none := by
  decide

/-- Claim C10: boundary detection searches only for the literal lowercase
`"<head>"`; in any batch, a URL whose body lacks that exact substring —
uppercase tags, attribute-bearing tags — gets the empty fragment recorded. -/
theorem extractHeads_literal_head_matching (fetchBody : String → Option String)
    (u body : String) (hb : fetchBody u = some body)
    (hnohead : strIndex body.toList headOpen = none) :
    ∀ (urls : List String) (m : List (String × String)),
      extractHeads fetchBody urls = some m → u ∈ urls → (u, "") ∈ m
  | [], m, hrun, hu => by simp at hu
  | a :: rest, m, hrun, hu => by
    simp only [extractHeads] at hrun
    rcases List.mem_cons.mp hu with hua | hur
    · subst hua
      simp only [hb] at hrun
      have hfrag : extractHeadFragment body = some "" := by
        have hno : strIndex body.data headOpen = none := hnohead
        cases hc : strIndex body.data headClose <;>
          simp [extractHeadFragment, hno, hc]
      simp only [hfrag] at hrun
      cases hrec : extractHeads fetchBody rest with
      | none => simp [hrec] at hrun
      | some m2 =>
        simp only [hrec, Option.some.injEq] at hrun
        subst hrun
        simp
    · cases hfa : (match fetchBody a with
                   | none => some ""
                   | some b => extractHeadFragment b) with
      | none => simp [hfa] at hrun
      | some fa =>
        simp only [hfa] at hrun
        cases hrec : extractHeads fetchBody rest with
        | none => simp [hrec] at hrun
        | some m2 =>
          simp only [hrec, Option.some.injEq] at hrun
          subst hrun
          exact List.mem_cons_of_mem _
            (extractHeads_literal_head_matching fetchBody u body hb hnohead rest m2 hrec hur)

/-- Witness for C10: an uppercase head element and an attribute-bearing head
element both yield the empty fragment, in a two-URL batch. -/
theorem extractHeads_literal_head_matching_check :
    ("https://a.example/", "") ∈ [("https://a.example/", ""), ("https://b.example/", "")] ∧
      ("https://b.example/", "") ∈ [("https://a.example/", ""), ("https://b.example/", "")] :=
  ⟨extractHeads_literal_head_matching
      (fun x => if x = "https://a.example/" then some "<HEAD><title>T</title></HEAD>"
        else some "<head lang=\"en\"><title>T</title></head>")
      "https://a.example/" "<HEAD><title>T</title></HEAD>" (by decide) (by decide)
      ["https://a.example/", "https://b.example/"]
      [("https://a.example/", ""), ("https://b.example/", "")] (by decide) (by decide),
   extractHeads_literal_head_matching
      (fun x => if x = "https://a.example/" then some "<HEAD><title>T</title></HEAD>"
        else some "<head lang=\"en\"><title>T</title></head>")
      "https://b.example/" "<head lang=\"en\"><title>T</title></head>" (by decide) (by decide)
      ["https://a.example/", "https://b.example/"]
      [("https://a.example/", ""), ("https://b.example/", "")] (by decide) (by decide)⟩

/-- Claim C5: a curation response that does not parse (after code-fence
stripping) fails the whole discovery call closed — the run returns the parse
error and never a partial result set; both the stage-1 and the stage-2
parse are covered. -/
theorem curation_parse_failure_fails_closed (env : DiscoveryEnv) :
    (∀ us raw1 e, env.sitemap = .ok us →
        env.narrowResp (sampleUrls env.shuffle us) = .ok raw1 →
        parseJSONURLs raw1 = .error e →
        Discover env = some (.error e) ∧ ∀ rs, Discover env ≠ some (.ok rs)) ∧
      (∀ us raw1 narrowed heads raw2 e, env.sitemap = .ok us →
        env.narrowResp (sampleUrls env.shuffle us) = .ok raw1 →
        parseJSONURLs raw1 = .ok narrowed →
        extractHeads env.fetchBody narrowed = some heads →
        env.selectResp narrowed heads = .ok raw2 →
        parseJSONResponse raw2 = .error e →
        Discover env = some (.error e) ∧ ∀ rs, Discover env ≠ some (.ok rs)) := by
  constructor
  · intro us raw1 e h1 h2 h3
    have hD : Discover env = some (.error e) := by
      simp [Discover, h1, h2, h3]
    exact ⟨hD, by simp [hD]⟩
  · intro us raw1 narrowed heads raw2 e h1 h2 h3 h4 h5 h6
    have hD : Discover env = some (.error e) := by
      simp [Discover, h1, h2, h3, h4, h5, h6]
    exact ⟨hD, by simp [hD]⟩

/-- Witness for C5: the concrete environment with a non-JSON stage-2
response aborts with the parse error and yields no result set. -/
theorem curation_parse_failure_fails_closed_check :
    Discover malformedEnv = some (.error "failed to parse JSON response") ∧
      ∀ rs, Discover malformedEnv ≠ some (.ok rs) :=
  (curation_parse_failure_fails_closed malformedEnv).2
    ["https://site.example/p0"] echoedNarrowJson ["https://site.example/p0"]
    [("https://site.example/p0", "<title>T</title>")] "this is not json"
    "failed to parse JSON response" rfl rfl (by decide) (by decide) rfl (by decide)

/-- Claim C1 (counterexample): a successful discovery run returning more
than 10 results.  The stage-2 curation response `elevenJson` carries eleven
entries and `Discover` returns all eleven — no stage truncates to the
configured output size of 10. -/
theorem discover_exceeds_ten_results :
    Discover elevenResultsEnv =
        some (.ok (updateStatuses (fun _ => "200 OK") elevenParsed)) ∧
      10 < (updateStatuses (fun _ => "200 OK") elevenParsed).length :=
  ⟨by decide, by decide⟩

/-- Claim C1 (amended): a successful `Discover` run returns exactly the
entries parsed from the stage-2 curation response, statuses updated — the
result count equals the response's entry count, and the 10-entry bound holds
only when the external curation stage itself returns at most 10 entries. -/
theorem discover_returns_all_curated_results (env : DiscoveryEnv)
    (us : List String) (raw1 : String) (narrowed : List String)
    (heads : List (String × String)) (raw2 : String) (final : List Result)
    (h1 : env.sitemap = .ok us)
    (h2 : env.narrowResp (sampleUrls env.shuffle us) = .ok raw1)
    (h3 : parseJSONURLs raw1 = .ok narrowed)
    (h4 : extractHeads env.fetchBody narrowed = some heads)
    (h5 : env.selectResp narrowed heads = .ok raw2)
    (h6 : parseJSONResponse raw2 = .ok final) :
    Discover env = some (.ok (updateStatuses env.status final)) ∧
      ∀ rs, Discover env = some (.ok rs) → rs.length = final.length := by
  have hD : Discover env = some (.ok (updateStatuses env.status final)) := by
    simp [Discover, h1, h2, h3, h4, h5, h6]
  refine ⟨hD, ?_⟩
  intro rs hrs
  rw [hD] at hrs
  simp only [Option.some.injEq, Except.ok.injEq] at hrs
  subst hrs
  simp [updateStatuses]

/-- Witness for C1's amended theorem at the eleven-entry environment. -/
theorem discover_returns_all_curated_results_check :
    Discover elevenResultsEnv =
        some (.ok (updateStatuses elevenResultsEnv.status elevenParsed)) ∧
      ∀ rs, Discover elevenResultsEnv = some (.ok rs) → rs.length = elevenParsed.length :=
  discover_returns_all_curated_results elevenResultsEnv
    ["https://site.example/p0"] echoedNarrowJson ["https://site.example/p0"]
    [("https://site.example/p0", "<title>T</title>")] elevenJson elevenParsed
    rfl rfl (by decide) (by decide) rfl (by decide)

/-! ## Code-fence stripping lemmas (for C8) -/

theorem isPrefixOf_append_self (p r : List Char) : p.isPrefixOf (p ++ r) = true := by
  induction p with
  | nil => simp
  | cons c cs ih => simp [List.isPrefixOf_cons₂, ih]

theorem isSuffixOf_append_self (p x : List Char) : p.isSuffixOf (x ++ p) = true := by
  simp [List.isSuffixOf, List.reverse_append, isPrefixOf_append_self]

theorem trimPrefixL_append (p r : List Char) : trimPrefixL (p ++ r) p = r := by
  simp [trimPrefixL, isPrefixOf_append_self, List.drop_left]

theorem trimSuffixL_append (x p : List Char) : trimSuffixL (x ++ p) p = x := by
  simp [trimSuffixL, isSuffixOf_append_self, List.length_append, List.take_left]

theorem dropTrail_append_ws (p : Char → Bool) (c : Char) (h : p c = true) (x : List Char) :
    dropTrail p (x ++ [c]) = dropTrail p x := by
  simp [dropTrail, List.reverse_append, List.dropWhile, h]

theorem trimtail_pad (p : Char → Bool) (c : Char) (h : p c = true) :
    ∀ l : List Char, dropTrail p ((l ++ [c]).dropWhile p) = dropTrail p (l.dropWhile p)
  | [] => by simp [List.dropWhile, h, dropTrail]
  | a :: l => by
    by_cases ha : p a = true
    · simpa [List.dropWhile_cons, ha] using trimtail_pad p c h l
    · simp only [List.cons_append, List.dropWhile_cons, ha, if_false]
      simpa using dropTrail_append_ws p c h (a :: l)

theorem trimGoSpace_pad (l : List Char) :
    trimGoSpace ('\n' :: (l ++ ['\n'])) = trimGoSpace l := by
  have h : goSpace '\n' = true := by decide
  simp only [trimGoSpace, List.dropWhile_cons, h, if_true]
  exact trimtail_pad goSpace '\n' h l

theorem trimJsonSpace_pad (l : List Char) :
    trimJsonSpace ('\n' :: (l ++ ['\n'])) = trimJsonSpace l := by
  have h : jsonSpace '\n' = true := by decide
  simp only [trimJsonSpace, List.dropWhile_cons, h, if_true]
  exact trimtail_pad jsonSpace '\n' h l

theorem jsonTopParse_pad (l : List Char) :
    jsonTopParse ('\n' :: (l ++ ['\n'])) = jsonTopParse l := by
  simp only [jsonTopParse, trimJsonSpace_pad]

theorem toList_append (a b : String) : (a ++ b).toList = a.toList ++ b.toList := by
  cases a; cases b; rfl

/-- Code-fence wrapping is transparent to both curation parsers for every
text that is not itself fence-decorated. -/
theorem fence_wrap_transparent (t : String)
    (h1 : fenceOpen.isPrefixOf t.toList = false)
    (h2 : fenceClose.isSuffixOf t.toList = false) :
    parseJSONURLs ("```json\n" ++ t ++ "\n```") = parseJSONURLs t ∧
      parseJSONResponse ("```json\n" ++ t ++ "\n```") = parseJSONResponse t := by
  have e1 : ("```json\n" : String).toList = fenceOpen ++ ['\n'] := by decide
  have e2 : ("\n```" : String).toList = '\n' :: fenceClose := by decide
  have hw : ("```json\n" ++ t ++ "\n```").toList =
      fenceOpen ++ (('\n' :: (t.toList ++ ['\n'])) ++ fenceClose) := by
    rw [toList_append, toList_append, e1, e2]
    simp
  have hstrip : trimSuffixL (trimPrefixL ("```json\n" ++ t ++ "\n```").toList fenceOpen)
      fenceClose = '\n' :: (t.toList ++ ['\n']) := by
    rw [hw, trimPrefixL_append]
    exact trimSuffixL_append _ _
  have h1n : ¬ (fenceOpen.isPrefixOf t.toList = true) := by rw [h1]; simp
  have h2n : ¬ (fenceClose.isSuffixOf t.toList = true) := by rw [h2]; simp
  have ha : trimPrefixL t.toList fenceOpen = t.toList := by
    unfold trimPrefixL
    rw [if_neg h1n]
  have hb : trimSuffixL t.toList fenceClose = t.toList := by
    unfold trimSuffixL
    rw [if_neg h2n]
  have hstrip2 : trimSuffixL (trimPrefixL t.toList fenceOpen) fenceClose = t.toList := by
    rw [ha, hb]
  constructor
  · simp only [parseJSONURLs, hstrip, hstrip2, trimGoSpace_pad]
  · simp only [parseJSONResponse, hstrip, hstrip2, jsonUnmarshalResults, jsonTopParse_pad]


/-! ## Parser inversion support -/

theorem dropWhile_decomp (p : Char → Bool) :
    ∀ l : List Char, ∃ pre, l = pre ++ l.dropWhile p ∧ ∀ x ∈ pre, p x = true
  | [] => ⟨[], rfl, by simp⟩
  | c :: t => by
    by_cases hc : p c = true
    · obtain ⟨pre, he, hall⟩ := dropWhile_decomp p t
      refine ⟨c :: pre, ?_, ?_⟩
      · simp only [List.dropWhile_cons, hc, if_true, List.cons_append]
        exact congrArg (fun l => c :: l) he
      · intro x hx
        rcases List.mem_cons.mp hx with hx | hx
        · rw [hx]; exact hc
        · exact hall x hx
    · exact ⟨[], by simp [List.dropWhile_cons, hc], by simp⟩

theorem dropWhile_append_neg (p : Char → Bool) (c : Char) (h : p c = false) :
    ∀ x : List Char, (x ++ [c]).dropWhile p = x.dropWhile p ++ [c]
  | [] => by simp [List.dropWhile_cons, h]
  | a :: t => by
    by_cases ha : p a = true
    · simpa [List.dropWhile_cons, ha] using dropWhile_append_neg p c h t
    · simp [List.dropWhile_cons, ha]

theorem dropTrail_cons_neg (p : Char → Bool) (c : Char) (h : p c = false)
    (x : List Char) : dropTrail p (c :: x) = c :: dropTrail p x := by
  have : (c :: x).reverse = x.reverse ++ [c] := by simp
  rw [dropTrail, this, dropWhile_append_neg p c h, List.reverse_append, dropTrail]
  simp

theorem dropTrail_concat_neg (p : Char → Bool) (c : Char) (h : p c = false)
    (x : List Char) : dropTrail p (x ++ [c]) = x ++ [c] := by
  rw [dropTrail]
  have : (x ++ [c]).reverse = c :: x.reverse := by simp
  rw [this, List.dropWhile_cons, h]
  simp

theorem trimJsonSpace_cons_backtick (x : List Char) :
    trimJsonSpace ('`' :: x) = '`' :: dropTrail jsonSpace x := by
  have h : jsonSpace '`' = false := by decide
  rw [trimJsonSpace, List.dropWhile_cons, h]
  simp only [Bool.false_eq_true, if_false]
  rw [dropTrail_cons_neg jsonSpace '`' h]

theorem trimJsonSpace_concat_backtick (x : List Char) :
    trimJsonSpace (x ++ ['`']) = x.dropWhile jsonSpace ++ ['`'] := by
  have h : jsonSpace '`' = false := by decide
  rw [trimJsonSpace, dropWhile_append_neg jsonSpace '`' h,
    dropTrail_concat_neg jsonSpace '`' h]

theorem isPrefixOf_exists : ∀ {p l : List Char}, p.isPrefixOf l = true → ∃ r, l = p ++ r
  | [], l, _ => ⟨l, rfl⟩
  | c :: cs, [], h => by simp at h
  | c :: cs, b :: bs, h => by
    rw [List.isPrefixOf_cons₂] at h
    obtain ⟨hcb, hrest⟩ := Bool.and_eq_true_iff.mp h
    obtain ⟨r, hr⟩ := isPrefixOf_exists hrest
    have hcb2 : c = b := beq_iff_eq.mp hcb
    exact ⟨r, by rw [hcb2, hr]; rfl⟩

theorem isSuffixOf_exists {p l : List Char} (h : p.isSuffixOf l = true) :
    ∃ x, l = x ++ p := by
  rw [List.isSuffixOf] at h
  obtain ⟨r, hr⟩ := isPrefixOf_exists h
  refine ⟨r.reverse, ?_⟩
  have := congrArg List.reverse hr
  simpa using this

theorem stripLit_decomp {lit l r : List Char} (h : stripLit lit l = some r) :
    l = lit ++ r := by
  rw [stripLit] at h
  split at h
  · obtain ⟨r0, hr0⟩ := isPrefixOf_exists (by assumption)
    have : l.drop lit.length = r := Option.some.inj h
    rw [hr0, List.drop_left] at this
    rw [hr0, this]
  · exact absurd h (by simp)

theorem parseValue_backtick (f : Nat) (r : List Char) :
    parseValue f ('`' :: r) = none := by
  cases f with
  | zero => rfl
  | succ n =>
    have c1 : ('`' == '"') = false := by decide
    have c2 : ('`' == '[') = false := by decide
    have c3 : ('`' == '\x7b') = false := by decide
    have c4 : ('`' == 't') = false := by decide
    have c5 : ('`' == 'f') = false := by decide
    have c6 : ('`' == 'n') = false := by decide
    have c7 : ('`'.isDigit || '`' == '-') = false := by decide
    simp [parseValue, c1, c2, c3, c4, c5, c6, c7]

theorem parseStringBody_decomp :
    ∀ (f : Nat) (cs s rest : List Char), parseStringBody f cs = some (s, rest) →
      ∃ pre, cs = pre ++ '"' :: rest
  | 0, cs, s, rest, h => by simp [parseStringBody] at h
  | f + 1, [], s, rest, h => by simp [parseStringBody] at h
  | f + 1, c :: r, s, rest, h => by
    simp only [parseStringBody] at h
    split_ifs at h with hq hbs hctl
    · -- closing quote
      have hc : c = '"' := beq_iff_eq.mp hq
      have hr : r = rest := by
        have := Option.some.inj h
        exact congrArg Prod.snd this
      exact ⟨[], by rw [hc, hr]; rfl⟩
    · -- escape sequence
      split at h
      · simp at h
      · -- unicode escape
        rename_i u1 u2 u3 u4 rest4
        split at h
        · rename_i a b c2 d ha hb hc2 hd
          simp only [Option.map_eq_some'] at h
          obtain ⟨q, hrec, hpair⟩ := h
          obtain ⟨s2, r2⟩ := q
          have hr2 : r2 = rest := by
            have := hpair
            simp only [Prod.mk.injEq] at this
            exact this.2
          obtain ⟨pre, hp⟩ := parseStringBody_decomp f rest4 s2 r2 hrec
          refine ⟨c :: 'u' :: u1 :: u2 :: u3 :: u4 :: pre, ?_⟩
          rw [hp, hr2]
          rfl
        · simp at h
      · -- single-character escape
        rename_i e rest2 hne
        split at h
        · rename_i ch hch
          simp only [Option.map_eq_some'] at h
          obtain ⟨q, hrec, hpair⟩ := h
          obtain ⟨s2, r2⟩ := q
          have hr2 : r2 = rest := by
            simp only [Prod.mk.injEq] at hpair
            exact hpair.2
          obtain ⟨pre, hp⟩ := parseStringBody_decomp f rest2 s2 r2 hrec
          refine ⟨c :: e :: pre, ?_⟩
          rw [hp, hr2]
          rfl
        · simp at h
    · -- ordinary character
      simp only [Option.map_eq_some'] at h
      obtain ⟨a, hrec, hpair⟩ := h
      obtain ⟨s2, r2⟩ := a
      have hr2 : r2 = rest := by
        simp only [Prod.mk.injEq] at hpair
        exact hpair.2
      obtain ⟨pre, hp⟩ := parseStringBody_decomp f r s2 r2 hrec
      exact ⟨c :: pre, by rw [hp, hr2]; rfl⟩

theorem parse_inversion : ∀ f : Nat,
    (∀ cs v rest, parseValue f cs = some (v, rest) →
      ∃ pre c, cs = pre ++ c :: rest ∧ valEnd c = true) ∧
    (∀ cs vs rest, parseElems f cs = some (vs, rest) →
      ∃ pre, cs = pre ++ ']' :: rest) ∧
    (∀ cs ms rest, parseMembers f cs = some (ms, rest) →
      ∃ pre, cs = pre ++ '\x7d' :: rest)
  | 0 => by
    refine ⟨?_, ?_, ?_⟩ <;> intro cs a rest h <;>
      simp [parseValue, parseElems, parseMembers] at h
  | f + 1 => by
    obtain ⟨ihP, ihQ, ihR⟩ := parse_inversion f
    refine ⟨?_, ?_, ?_⟩
    · intro cs v rest h
      cases cs with
      | nil => simp [parseValue] at h
      | cons c r0 =>
        simp only [parseValue] at h
        split_ifs at h with hq hbr hbc ht hf hn hd
        · -- string value
          split at h
          · rename_i s r hsb
            have hr : r = rest := by
              have := Option.some.inj h
              exact congrArg Prod.snd this
            subst hr
            obtain ⟨pre, hp⟩ := parseStringBody_decomp _ _ _ _ hsb
            exact ⟨c :: pre, '"', by rw [hp]; rfl, by decide⟩
          · simp at h
        · -- array value
          split at h
          · rename_i r2 hdw
            have hr : r2 = rest := by
              have := Option.some.inj h
              exact congrArg Prod.snd this
            subst hr
            obtain ⟨pw, hw, _⟩ := dropWhile_decomp jsonSpace r0
            rw [hdw] at hw
            exact ⟨c :: pw, ']', by rw [hw]; rfl, by decide⟩
          · cases hpe : parseElems f (List.dropWhile jsonSpace r0) with
            | none => rw [hpe] at h; simp at h
            | some q =>
              obtain ⟨vs2, r2⟩ := q
              rw [hpe] at h
              simp only [Option.some.injEq, Prod.mk.injEq] at h
              obtain ⟨hv, hr⟩ := h
              subst hr
              obtain ⟨pre2, hp2⟩ := ihQ _ _ _ hpe
              obtain ⟨pw, hw, _⟩ := dropWhile_decomp jsonSpace r0
              rw [hp2] at hw
              refine ⟨c :: (pw ++ pre2), ']', ?_, by decide⟩
              rw [hw]
              simp
        · -- object value
          split at h
          · rename_i r2 hdw
            have hr : r2 = rest := by
              have := Option.some.inj h
              exact congrArg Prod.snd this
            subst hr
            obtain ⟨pw, hw, _⟩ := dropWhile_decomp jsonSpace r0
            rw [hdw] at hw
            exact ⟨c :: pw, '\x7d', by rw [hw]; rfl, by decide⟩
          · cases hpm : parseMembers f (List.dropWhile jsonSpace r0) with
            | none => rw [hpm] at h; simp at h
            | some q =>
              obtain ⟨ms2, r2⟩ := q
              rw [hpm] at h
              simp only [Option.some.injEq, Prod.mk.injEq] at h
              obtain ⟨hv, hr⟩ := h
              subst hr
              obtain ⟨pre2, hp2⟩ := ihR _ _ _ hpm
              obtain ⟨pw, hw, _⟩ := dropWhile_decomp jsonSpace r0
              rw [hp2] at hw
              refine ⟨c :: (pw ++ pre2), '\x7d', ?_, by decide⟩
              rw [hw]
              simp
        · -- true literal
          simp only [Option.map_eq_some'] at h
          obtain ⟨a, hsl, hpair⟩ := h
          have ha : a = rest := by
            have : ((JVal.bool true, a) : JVal × List Char) = (v, rest) := hpair
            exact congrArg Prod.snd this
          subst ha
          have hd0 := stripLit_decomp hsl
          exact ⟨c :: 'r' :: 'u' :: [], 'e', by rw [hd0]; rfl, by decide⟩
        · -- false literal
          simp only [Option.map_eq_some'] at h
          obtain ⟨a, hsl, hpair⟩ := h
          have ha : a = rest := by
            have : ((JVal.bool false, a) : JVal × List Char) = (v, rest) := hpair
            exact congrArg Prod.snd this
          subst ha
          have hd0 := stripLit_decomp hsl
          exact ⟨c :: 'a' :: 'l' :: 's' :: [], 'e', by rw [hd0]; rfl, by decide⟩
        · -- null literal
          simp only [Option.map_eq_some'] at h
          obtain ⟨a, hsl, hpair⟩ := h
          have ha : a = rest := by
            have : ((JVal.null, a) : JVal × List Char) = (v, rest) := hpair
            exact congrArg Prod.snd this
          subst ha
          have hd0 := stripLit_decomp hsl
          exact ⟨c :: 'u' :: 'l' :: [], 'l', by rw [hd0]; rfl, by decide⟩
        · -- numeral
          have hnum : numChar c = true := by
            rcases Bool.or_eq_true_iff.mp hd with h' | h'
            · simp [numChar, h']
            · simp [numChar, h']
          have hrest : rest = (c :: r0).dropWhile numChar := by
            have := Option.some.inj h
            exact (congrArg Prod.snd this).symm
          rw [List.dropWhile_cons, hnum] at hrest
          simp only [if_true] at hrest
          obtain ⟨pw, hw, hall⟩ := dropWhile_decomp numChar r0
          rcases List.eq_nil_or_concat pw with hnil | ⟨L, b, hcat⟩
          · subst hnil
            simp only [List.nil_append] at hw
            refine ⟨[], c, ?_, by simp [valEnd, hnum]⟩
            rw [hrest]
            conv_lhs => rw [hw]
            simp
          · have hb : numChar b = true := hall b (by rw [hcat]; simp [List.concat_eq_append])
            refine ⟨c :: L, b, ?_, by simp [valEnd, hb]⟩
            rw [hrest]
            rw [hcat, List.concat_eq_append] at hw
            conv_lhs => rw [hw]
            simp
    · intro cs vs rest h
      simp only [parseElems] at h
      split at h
      · simp at h
      · rename_i v r1 hpv
        obtain ⟨pre1, c1, hcs, hval⟩ := ihP _ _ _ hpv
        split at h
        · -- comma: a further element follows
          rename_i r2 hdw1
          cases hpe : parseElems f (List.dropWhile jsonSpace r2) with
          | none => rw [hpe] at h; simp at h
          | some q =>
            obtain ⟨vs2, r3⟩ := q
            rw [hpe] at h
            simp only [Option.some.injEq, Prod.mk.injEq] at h
            obtain ⟨hv2, hr3⟩ := h
            subst hr3
            obtain ⟨pre2, hp2⟩ := ihQ _ _ _ hpe
            obtain ⟨pw1, hw1, _⟩ := dropWhile_decomp jsonSpace r1
            obtain ⟨pw2, hw2, _⟩ := dropWhile_decomp jsonSpace r2
            rw [hdw1] at hw1
            rw [hp2] at hw2
            refine ⟨pre1 ++ c1 :: (pw1 ++ ',' :: (pw2 ++ pre2)), ?_⟩
            rw [hcs, hw1, hw2]
            simp
        · -- closing bracket
          rename_i r2 hdw1
          simp only [Option.some.injEq, Prod.mk.injEq] at h
          obtain ⟨hvv, hr2⟩ := h
          subst hr2
          obtain ⟨pw1, hw1, _⟩ := dropWhile_decomp jsonSpace r1
          rw [hdw1] at hw1
          refine ⟨pre1 ++ c1 :: pw1, ?_⟩
          rw [hcs, hw1]
          simp
        · simp at h
    · intro cs ms rest h
      simp only [parseMembers] at h
      split at h
      · rename_i r0
        split at h
        · simp at h
        · rename_i k r1 hsb
          obtain ⟨preS, hpS⟩ := parseStringBody_decomp _ _ _ _ hsb
          split at h
          · -- colon after the key
            rename_i r2 hdw1
            split at h
            · simp at h
            · rename_i v r3 hpv
              obtain ⟨preV, cV, hcsV, hvalV⟩ := ihP _ _ _ hpv
              split at h
              · -- comma: a further member follows
                rename_i r4 hdw2
                cases hpm : parseMembers f (List.dropWhile jsonSpace r4) with
                | none => rw [hpm] at h; simp at h
                | some q =>
                  obtain ⟨ms2, r5⟩ := q
                  rw [hpm] at h
                  simp only [Option.some.injEq, Prod.mk.injEq] at h
                  obtain ⟨hm2, hr5⟩ := h
                  subst hr5
                  obtain ⟨preM, hpM⟩ := ihR _ _ _ hpm
                  obtain ⟨pw1, hw1, _⟩ := dropWhile_decomp jsonSpace r1
                  obtain ⟨pw2, hw2, _⟩ := dropWhile_decomp jsonSpace r2
                  obtain ⟨pw3, hw3, _⟩ := dropWhile_decomp jsonSpace r3
                  obtain ⟨pw4, hw4, _⟩ := dropWhile_decomp jsonSpace r4
                  rw [hdw1] at hw1
                  rw [hcsV] at hw2
                  rw [hdw2] at hw3
                  rw [hpM] at hw4
                  refine ⟨'"' :: (preS ++ '"' :: (pw1 ++ ':' :: (pw2 ++ preV ++ cV ::
                    (pw3 ++ ',' :: (pw4 ++ preM))))), ?_⟩
                  rw [hpS, hw1, hw2, hw3, hw4]
                  simp
              · -- closing brace
                rename_i r4 hdw2
                simp only [Option.some.injEq, Prod.mk.injEq] at h
                obtain ⟨hm1, hr4⟩ := h
                subst hr4
                obtain ⟨pw1, hw1, _⟩ := dropWhile_decomp jsonSpace r1
                obtain ⟨pw2, hw2, _⟩ := dropWhile_decomp jsonSpace r2
                obtain ⟨pw3, hw3, _⟩ := dropWhile_decomp jsonSpace r3
                rw [hdw1] at hw1
                rw [hcsV] at hw2
                rw [hdw2] at hw3
                refine ⟨'"' :: (preS ++ '"' :: (pw1 ++ ':' :: (pw2 ++ preV ++ cV :: pw3))), ?_⟩
                rw [hpS, hw1, hw2, hw3]
                simp
              · simp at h
          · simp at h
      · simp at h

theorem jsonTopParse_cons_backtick (x : List Char) : jsonTopParse ('`' :: x) = none := by
  simp only [jsonTopParse, trimJsonSpace_cons_backtick, parseValue_backtick]

theorem jsonTopParse_concat_backtick (y : List Char) :
    jsonTopParse (y ++ ['`']) = none := by
  simp only [jsonTopParse, trimJsonSpace_concat_backtick]
  cases hpv : parseValue ((List.dropWhile jsonSpace y ++ ['`']).length + 1)
      (List.dropWhile jsonSpace y ++ ['`']) with
  | none => simp [hpv]
  | some p =>
    obtain ⟨v, rest⟩ := p
    obtain ⟨pre, c, hdec, hval⟩ := (parse_inversion _).1 _ _ _ hpv
    rcases List.eq_nil_or_concat rest with hnil | ⟨R, b, hcat⟩
    · subst hnil
      exfalso
      have h1 : (List.dropWhile jsonSpace y ++ ['`']).getLast? = some '`' :=
        List.getLast?_concat _
      rw [hdec] at h1
      have h2 : (pre ++ [c]).getLast? = some c := List.getLast?_concat _
      have hc : c = '`' := Option.some.inj (h2.symm.trans h1)
      rw [hc] at hval
      exact absurd hval (by decide)
    · by_cases hws : List.dropWhile jsonSpace rest = []
      · exfalso
        have hallws := List.dropWhile_eq_nil_iff.mp hws
        have hb : jsonSpace b = true :=
          hallws b (by rw [hcat]; simp [List.concat_eq_append])
        have h1 : (List.dropWhile jsonSpace y ++ ['`']).getLast? = some '`' :=
          List.getLast?_concat _
        rw [hdec] at h1
        have hrne : (c :: rest) ≠ [] := by simp
        rw [List.getLast?_append_of_ne_nil _ hrne] at h1
        rw [hcat, List.concat_eq_append] at h1
        have h3 : (c :: (R ++ [b])).getLast? = some b := by
          rw [show c :: (R ++ [b]) = (c :: R) ++ [b] from rfl]
          exact List.getLast?_concat _
        rw [h3] at h1
        have hb2 : b = '`' := Option.some.inj h1
        rw [hb2] at hb
        exact absurd hb (by decide)
      · simp [hpv, hws]

/-- Claim C8: for every JSON array text, wrapping the curation response in a
markdown code fence (```` ```json ```` prefix and ```` ``` ```` suffix with
surrounding newlines) yields the same parse result as the unwrapped text, in
both curation parsers.  A valid JSON document can neither begin nor end with
a backtick (by the parser inversion above), so the fence trims are no-ops on
the unwrapped text. -/
theorem fence_wrapped_response_parses_identically (t : String)
    (harr : ∃ vs, jsonTopParse t.toList = some (JVal.arr vs)) :
    parseJSONURLs ("```json\n" ++ t ++ "\n```") = parseJSONURLs t ∧
      parseJSONResponse ("```json\n" ++ t ++ "\n```") = parseJSONResponse t := by
  obtain ⟨vs, hv⟩ := harr
  have h1 : fenceOpen.isPrefixOf t.toList = false := by
    by_contra hne
    have htrue : fenceOpen.isPrefixOf t.toList = true := by
      cases hb : fenceOpen.isPrefixOf t.toList with
      | false => exact absurd hb hne
      | true => rfl
    obtain ⟨r, hr⟩ := isPrefixOf_exists htrue
    have hnone : jsonTopParse t.toList = none := by
      rw [hr]
      rw [show fenceOpen ++ r = '`' :: ('`' :: '`' :: 'j' :: 's' :: 'o' :: 'n' :: r) from rfl]
      exact jsonTopParse_cons_backtick _
    rw [hnone] at hv
    exact Option.noConfusion hv
  have h2 : fenceClose.isSuffixOf t.toList = false := by
    by_contra hne
    have htrue : fenceClose.isSuffixOf t.toList = true := by
      cases hb : fenceClose.isSuffixOf t.toList with
      | false => exact absurd hb hne
      | true => rfl
    obtain ⟨x, hx⟩ := isSuffixOf_exists htrue
    have hnone : jsonTopParse t.toList = none := by
      rw [hx]
      rw [show (x ++ fenceClose : List Char) = (x ++ ['`', '`']) ++ ['`'] from by
        rw [show (fenceClose : List Char) = ['`', '`', '`'] from rfl]
        simp]
      exact jsonTopParse_concat_backtick _
    rw [hnone] at hv
    exact Option.noConfusion hv
  exact fence_wrap_transparent t h1 h2

/-- Witness for C8 at a concrete one-element JSON array. -/
theorem fence_wrapped_response_parses_identically_check :
    parseJSONURLs ("```json\n" ++ "[\"https://site.example/p0\"]" ++ "\n```") =
        parseJSONURLs "[\"https://site.example/p0\"]" ∧
      parseJSONResponse ("```json\n" ++ "[\"https://site.example/p0\"]" ++ "\n```") =
        parseJSONResponse "[\"https://site.example/p0\"]" :=
  fence_wrapped_response_parses_identically "[\"https://site.example/p0\"]"
    ⟨[JVal.str "https://site.example/p0"], rfl⟩

/-! ## Fuel adequacy of the tag-removal loop

Each iteration of `removeLoopF`'s recursive case strictly shortens the text,
so any fuel above the text length yields the same result: the
`length + 1` fuel used by `removeTagsAndContent` reproduces Go's unbounded
`for` loop exactly. -/

theorem isPrefixOf_length {p l : List Char} (h : p.isPrefixOf l = true) :
    p.length ≤ l.length := by
  obtain ⟨r, hr⟩ := isPrefixOf_exists h
  rw [hr]
  simp

theorem strIndex_bound : ∀ {hay ned : List Char} {i : Nat},
    strIndex hay ned = some i → i + ned.length ≤ hay.length
  | [], ned, i, h => by
    rw [strIndex] at h
    split at h
    · have hi : i = 0 := (Option.some.inj h).symm
      have : ned = [] := by simpa [List.isEmpty_iff] using (by assumption : ned.isEmpty = true)
      simp [hi, this]
    · exact absurd h (by simp)
  | c :: t, ned, i, h => by
    rw [strIndex] at h
    split at h
    · have hi : i = 0 := (Option.some.inj h).symm
      have hlen := isPrefixOf_length (by assumption : ned.isPrefixOf (c :: t) = true)
      simp [hi]
      exact hlen
    · simp only [Option.map_eq_some'] at h
      obtain ⟨i0, hrec, hi⟩ := h
      have := strIndex_bound hrec
      subst hi
      simp only [List.length_cons]
      omega

theorem removeLoopF_fuel (openTagL closeTagL : List Char) :
    ∀ (f g : Nat) (cs : List Char), cs.length < f → cs.length < g →
      removeLoopF openTagL closeTagL f cs = removeLoopF openTagL closeTagL g cs
  | 0, g, cs, hf, hg => by omega
  | f + 1, 0, cs, hf, hg => by omega
  | f + 1, g + 1, cs, hf, hg => by
    cases hos : strIndex (lowerL cs) (lowerL openTagL) with
    | none => simp only [removeLoopF, hos]
    | some openStart =>
      cases hgt : strIndex (cs.drop openStart) ['>'] with
      | none => simp only [removeLoopF, hos, hgt]
      | some i =>
        cases hcl : strIndex (lowerL (cs.drop (openStart + i + 1))) (lowerL closeTagL) with
        | none => simp only [removeLoopF, hos, hgt, hcl]
        | some j =>
          simp only [removeLoopF, hos, hgt, hcl]
          have hos2 := strIndex_bound hos
          have hgt2 := strIndex_bound hgt
          have hcl2 := strIndex_bound hcl
          simp only [lowerL, List.length_map, List.length_drop, List.length_cons, List.length_nil] at hos2 hgt2 hcl2
          have hshrink :
              (cs.take openStart ++
                cs.drop (openStart + i + 1 + j + closeTagL.length)).length < cs.length := by
            simp only [List.length_append, List.length_take, List.length_drop]
            omega
          exact removeLoopF_fuel openTagL closeTagL f g _ (by omega) (by omega)

end Discovery
